import Mathlib

/-!
Shallow embedding of the sp1 recursion-layer excerpt:

* `crates/recursion/core-v2/src/chips/mem/constant.rs` — the constant-memory
  consistency chip (`MemoryChip`): preprocessed and runtime trace generation,
  dependency hook, and interaction emission (`eval`);
* `crates/recursion/core-v2/src/machine.rs` — machine composition
  (`RecursionAir`): deployment profiles, `shrink_shape`, and per-chip height
  computation (`RecursionAirHeights`);
* `recursion/core-v2/src/builder.rs` — the shared interaction builder
  (`RecursionAirBuilder`): `send_block` / `receive_block` and the
  single-value wrappers.

Field elements are kept abstract: definitions are polymorphic in a type `F`
with the algebraic structure each piece of code actually uses (negation for
the Read sign flip, an additive group for interaction sums).  Machine-word
counters (`usize`) are `Nat`.
-/

namespace Sp1Recursion

/-- Rust `Address<F>` (a newtype over one field element, used symbolically);
the Rust projection `.0` is the field `inner`. -/
structure Address (F : Type) where
  inner : F
deriving DecidableEq

/-- Modelled from the spec: `Block<F>` lives in `sp1_recursion_core::air`,
outside the excerpt; the spec fixes it as a "fixed-width
(extension-degree-sized, e.g. 4 elements) array representing one atomic
value".  We embed it as a 4-element record; `toList` is its iteration
order. -/
structure Block (F : Type) where
  v0 : F
  v1 : F
  v2 : F
  v3 : F
deriving DecidableEq

/-- Iterating a `Block` yields its four elements in order. -/
def Block.toList {F : Type} (b : Block F) : List F :=
  [b.v0, b.v1, b.v2, b.v3]

/-- Rust `MemAccessKind` from the excerpt: the two access kinds of a
constant-memory instruction. -/
inductive MemAccessKind where
  | Read
  | Write
deriving DecidableEq

/-- Wrapper with a single field `inner`, mirroring the Rust wrapper through
which `constant.rs` reaches `addrs.inner` and `vals.inner`. -/
structure MemIo (T : Type) where
  inner : T
deriving DecidableEq

/-- Rust `MemInstr<F>` as destructured in `constant.rs`:
`MemInstr { addrs, vals, mult, kind }`. -/
structure MemInstr (F : Type) where
  addrs : MemIo (Address F)
  vals : MemIo (Block F)
  mult : F
  kind : MemAccessKind
deriving DecidableEq

/-- Rust `Instruction<F>`: the closed variant set matched in
`machine.rs` (`RecursionAirHeights::add_assign`) and `constant.rs`.  Only the
payloads those two files read are carried: the `MemInstr` of `Mem` and the
`output_addrs_mults` / `input_addr` fields of the hint variants; the other
payloads are opaque to the excerpted code and are omitted. -/
inductive Instruction (F : Type) where
  | BaseAlu
  | ExtAlu
  | Mem (instr : MemInstr F)
  | Poseidon2
  | ExpReverseBitsLen
  | Hint (output_addrs_mults : List (Address F × F))
  | HintBits (output_addrs_mults : List (Address F × F)) (input_addr : Address F)
  | HintExt2Felts (output_addrs_mults : List (Address F × F)) (input_addr : Address F)
  | FriFold
  | CommitPublicValues
  | Print
deriving DecidableEq

/-- Rust `RecursionShape` from `machine.rs`: a map from chip name to fixed
log2 row count (the `HashMap` is embedded as an association list). -/
structure RecursionShape where
  inner : List (String × Nat)
deriving DecidableEq

/-- Lookup of a chip name in a `RecursionShape` (the `HashMap::get`). -/
def RecursionShape.lookup (s : RecursionShape) (name : String) : Option Nat :=
  (s.inner.find? (fun p => p.1 == name)).map (·.2)

/-- Rust `RecursionProgram<F>`: per the spec, an "ordered immutable sequence
of Instructions plus an optional fixed-shape map (chip name → target log2 row
count)". -/
structure RecursionProgram (F : Type) where
  instructions : List (Instruction F)
  fixed_shape : Option RecursionShape
deriving DecidableEq

/-- Modelled from the spec: `Program::fixed_log2_rows` (trait method outside
the excerpt) reads the configured fixed shape for the chip with the given
name, if any — "the configured fixed shape" of §4.1. -/
def RecursionProgram.fixed_log2_rows {F : Type} (p : RecursionProgram F)
    (name : String) : Option Nat :=
  p.fixed_shape.bind (·.lookup name)

/-- Rust `MemEvent` (one variable-memory event, as in the excerpt's tests). -/
structure MemEvent (F : Type) where
  inner : Block F
deriving DecidableEq

/-- Rust `ExecutionRecord<F>` restricted to the fields the excerpt reads:
the per-shard constant-memory counter `mem_const_count`, the variable-memory
event list, and the optional per-shard fixed shape. -/
structure ExecutionRecord (F : Type) where
  mem_const_count : Nat
  mem_var_events : List (MemEvent F)
  shape : Option RecursionShape
deriving DecidableEq

/-- Modelled from the spec: `ExecutionRecord::fixed_log2_rows` (trait method
outside the excerpt) reads the record's configured fixed shape for the chip
with the given name, if any. -/
def ExecutionRecord.fixed_log2_rows {F : Type} (r : ExecutionRecord F)
    (name : String) : Option Nat :=
  r.shape.bind (·.lookup name)

/-- Rust `RowMajorMatrix<F>`: flat row-major values plus a column width. -/
structure RowMajorMatrix (F : Type) where
  values : List F
  width : Nat
deriving DecidableEq

/-- Row count of a `RowMajorMatrix` (`values.len() / width`). -/
def RowMajorMatrix.height {F : Type} (m : RowMajorMatrix F) : Nat :=
  m.values.length / m.width

/-- Smallest power of two that is ≥ `n`, with `0 ↦ 1`; the behaviour of
Rust `usize::next_power_of_two` on the sizes in range here. -/
def nextPowerOfTwo : Nat → Nat
  | 0 => 1
  | n + 1 => if n + 1 ≤ nextPowerOfTwo n then nextPowerOfTwo n else 2 * nextPowerOfTwo n

/-- Modelled from the spec: the padded row count used by `pad_rows_fixed`
(`sp1_core_machine::utils`, outside the excerpt) — "pad the row list with
zero rows to the configured fixed shape or to the next power of two"
(spec §4.1); a fixed shape of `p` means `2 ^ p` rows. -/
def padded_nb_rows (n : Nat) (fixed_log2 : Option Nat) : Nat :=
  match fixed_log2 with
  | some p => 2 ^ p
  | none => nextPowerOfTwo n

/-- Modelled from the spec: `pad_rows_fixed` (`sp1_core_machine::utils`,
outside the excerpt) extends the row list with copies of the dummy row up to
`padded_nb_rows`. -/
def pad_rows_fixed {R : Type} (rows : List R) (dummy : R)
    (fixed_log2 : Option Nat) : List R :=
  rows ++ List.replicate (padded_nb_rows rows.length fixed_log2 - rows.length) dummy

/-- Rust `NUM_CONST_MEM_ENTRIES_PER_ROW` from `constant.rs`. -/
def NUM_CONST_MEM_ENTRIES_PER_ROW : Nat := 2

/-- Rust `MemoryChip<F>`: an empty marker struct. -/
structure MemoryChip (F : Type) where

/-- The chip name returned by `MemoryChip::name`. -/
def MemoryChip.chipName : String := "MemoryConst"

/-- Rust `MemoryAccessCols<F>` as constructed in `constant.rs`
(`MemoryAccessCols { addr, mult }`): one address and one signed
multiplicity. -/
structure MemoryAccessCols (F : Type) where
  addr : Address F
  mult : F
deriving DecidableEq

/-- One preprocessed cell: a `(Block<F>, MemoryAccessCols<F>)` pair, exactly
the element type of `values_and_accesses` in `MemoryPreprocessedCols`. -/
abbrev MemEntry (F : Type) := Block F × MemoryAccessCols F

/-- The flat field-element layout of one `(Block, MemoryAccessCols)` cell:
four block elements, then the address, then the multiplicity (the `repr(C)`
layout `AlignedBorrow` reads back). -/
def entryToCols {F : Type} (e : MemEntry F) : List F :=
  e.1.toList ++ [e.2.addr.inner, e.2.mult]

/-- The all-zero cell (`[F::zero(); ...]` reinterpreted as a cell). -/
def zeroEntry {F : Type} [Zero F] : MemEntry F :=
  (⟨0, 0, 0, 0⟩, ⟨⟨0⟩, 0⟩)

/-- Rust `NUM_MEM_INIT_COLS = size_of::<MemoryCols<u8>>()`: `MemoryCols` has
the single field `_nothing`, so the runtime trace has one column. -/
def NUM_MEM_INIT_COLS : Nat := 1

/-- Rust `NUM_MEM_PREPROCESSED_INIT_COLS = size_of::<MemoryPreprocessedCols<u8>>()`:
`NUM_CONST_MEM_ENTRIES_PER_ROW` cells of 4 + 1 + 1 field elements each. -/
def NUM_MEM_PREPROCESSED_INIT_COLS : Nat := NUM_CONST_MEM_ENTRIES_PER_ROW * 6

/-- The signed multiplicity assigned in `generate_preprocessed_trace`:
`match kind { Read => -mult, Write => mult }`. -/
def signedMult {F : Type} [Neg F] (kind : MemAccessKind) (mult : F) : F :=
  match kind with
  | .Read => -mult
  | .Write => mult

/-- The `filter_map` stage of `generate_preprocessed_trace`: keep the `Mem`
instructions in program order, and turn each into the preprocessed cell
`(vals.inner, MemoryAccessCols { addr: addrs.inner, mult: signed mult })`. -/
def memPreprocessedEntries {F : Type} [Neg F] (p : RecursionProgram F) :
    List (MemEntry F) :=
  p.instructions.filterMap fun instruction =>
    match instruction with
    | .Mem ⟨addrs, vals, mult, kind⟩ =>
        some (vals.inner, ⟨addrs.inner, signedMult kind mult⟩)
    | _ => none

/-- The `.chunks(NUM_CONST_MEM_ENTRIES_PER_ROW)` stage: consecutive chunks of
the entry list, the value of the constant being 2; every chunk but possibly
the last has exactly two elements. -/
def toChunksPerRow {α : Type} : List α → List (List α)
  | [] => []
  | [x] => [[x]]
  | x :: y :: l => [x, y] :: toChunksPerRow l

/-- Building one preprocessed row from a chunk: start from the all-zero row
and overwrite the first `chunk.length` cells with the chunk (the `zip` loop
in `generate_preprocessed_trace`); the result always has exactly
`NUM_CONST_MEM_ENTRIES_PER_ROW` cells. -/
def memRowEntries {F : Type} [Zero F] (chunk : List (MemEntry F)) :
    List (MemEntry F) :=
  (chunk ++ List.replicate (NUM_CONST_MEM_ENTRIES_PER_ROW - chunk.length) zeroEntry).take
    NUM_CONST_MEM_ENTRIES_PER_ROW

/-- The padded preprocessed row list, each row kept as its list of cells
(the flat matrix below is the cellwise flattening; `AlignedBorrow` reading a
flat row back as `MemoryPreprocessedCols` recovers exactly these cells). -/
def memPreprocessedRows {F : Type} [Neg F] [Zero F] (p : RecursionProgram F) :
    List (List (MemEntry F)) :=
  pad_rows_fixed ((toChunksPerRow (memPreprocessedEntries p)).map memRowEntries)
    (List.replicate NUM_CONST_MEM_ENTRIES_PER_ROW zeroEntry)
    (p.fixed_log2_rows MemoryChip.chipName)

/-- Rust `MemoryChip::generate_preprocessed_trace`: filter to `Mem`
instructions, sign the multiplicities, pack two cells per row, pad to the
fixed shape or the next power of two, and flatten row-major. -/
def MemoryChip.generate_preprocessed_trace {F : Type} [Neg F] [Zero F]
    (p : RecursionProgram F) : Option (RowMajorMatrix F) :=
  some
    ⟨((memPreprocessedRows p).map fun row => (row.map entryToCols).flatten).flatten,
      NUM_MEM_PREPROCESSED_INIT_COLS⟩

/-- Rust `MemoryChip::generate_dependencies`: the body is empty ("This is a
no-op."), so the output record is returned unchanged. -/
def MemoryChip.generate_dependencies {F : Type} (_record : ExecutionRecord F)
    (output : ExecutionRecord F) : ExecutionRecord F :=
  output

/-- Rust `usize::checked_sub`. -/
def checked_sub (a b : Nat) : Option Nat :=
  if b ≤ a then some (a - b) else none

/-- The `num_rows` computation of `MemoryChip::generate_trace`:
`mem_const_count.checked_sub(1).map(|x| x / NUM_CONST_MEM_ENTRIES_PER_ROW + 1).unwrap_or_default()`. -/
def memNumRows (mem_const_count : Nat) : Nat :=
  match checked_sub mem_const_count 1 with
  | some x => x / NUM_CONST_MEM_ENTRIES_PER_ROW + 1
  | none => 0

/-- Rust `MemoryChip::generate_trace`: `memNumRows` all-zero one-column rows,
padded like the preprocessed trace, flattened row-major.  The program is not
an argument: the row count comes only from the record's counter (and the
record's fixed-shape configuration for padding). -/
def MemoryChip.generate_trace {F : Type} [Zero F] (input : ExecutionRecord F) :
    RowMajorMatrix F :=
  (fun rows => RowMajorMatrix.mk rows.flatten NUM_MEM_INIT_COLS)
    (pad_rows_fixed
      (List.replicate (memNumRows input.mem_const_count)
        (List.replicate NUM_MEM_INIT_COLS (0 : F)))
      (List.replicate NUM_MEM_INIT_COLS (0 : F))
      (input.fixed_log2_rows MemoryChip.chipName))

/-- Modelled from the spec: `InteractionKind` (`sp1_core::lookup`, outside
the excerpt); only the `Memory` channel is used by the excerpted code. -/
inductive InteractionKind where
  | Memory
deriving DecidableEq

/-- Rust `AirInteraction` as constructed by `AirInteraction::new(values,
multiplicity, kind)` in `builder.rs`. -/
structure AirInteraction (F : Type) where
  values : List F
  multiplicity : F
  kind : InteractionKind
deriving DecidableEq

/-- The interaction built by `RecursionAirBuilder::send_block` (and
`receive_block`): key fields `once(addr.0).chain(val)` — the address followed
by the four block elements — with the given multiplicity, on the Memory
channel. -/
def blockInteraction {F : Type} (addr : Address F) (val : Block F) (mult : F) :
    AirInteraction F :=
  ⟨addr.inner :: val.toList, mult, .Memory⟩

/-- Builder state: the interactions sent and received so far.  `send` and
`receive` append; every other builder helper is defined through them. -/
structure BuilderState (F : Type) where
  sends : List (AirInteraction F)
  receives : List (AirInteraction F)
deriving DecidableEq

/-- `AirBuilder::send`. -/
def BuilderState.send {F : Type} (b : BuilderState F) (i : AirInteraction F) :
    BuilderState F :=
  { b with sends := b.sends ++ [i] }

/-- `AirBuilder::receive`. -/
def BuilderState.receive {F : Type} (b : BuilderState F) (i : AirInteraction F) :
    BuilderState F :=
  { b with receives := b.receives ++ [i] }

/-- Rust `RecursionAirBuilder::send_block`. -/
def BuilderState.send_block {F : Type} (b : BuilderState F) (addr : Address F)
    (val : Block F) (mult : F) : BuilderState F :=
  b.send (blockInteraction addr val mult)

/-- Rust `RecursionAirBuilder::receive_block`. -/
def BuilderState.receive_block {F : Type} (b : BuilderState F) (addr : Address F)
    (val : Block F) (mult : F) : BuilderState F :=
  b.receive (blockInteraction addr val mult)

/-- The padded block built by `send_single` / `receive_single`: the value in
position 0 and zeros elsewhere. -/
def singlePaddedBlock {F : Type} [Zero F] (val : F) : Block F :=
  ⟨val, 0, 0, 0⟩

/-- Rust `RecursionAirBuilder::send_single`. -/
def BuilderState.send_single {F : Type} [Zero F] (b : BuilderState F)
    (addr : Address F) (val : F) (mult : F) : BuilderState F :=
  b.send_block addr (singlePaddedBlock val) mult

/-- Rust `RecursionAirBuilder::receive_single`. -/
def BuilderState.receive_single {F : Type} [Zero F] (b : BuilderState F)
    (addr : Address F) (val : F) (mult : F) : BuilderState F :=
  b.receive_block addr (singlePaddedBlock val) mult

/-- The interaction `MemoryChip::eval` emits for one preprocessed cell:
`send_block(access.addr, value, access.mult)`. -/
def entryInteraction {F : Type} (e : MemEntry F) : AirInteraction F :=
  blockInteraction e.2.addr e.1 e.2.mult

/-- Rust `MemoryChip::eval`, accumulated over the whole preprocessed trace:
for every `(value, access)` cell of every preprocessed row, one
`send_block(access.addr, value, access.mult)` interaction. -/
def MemoryChip.evalSends {F : Type} [Neg F] [Zero F] (p : RecursionProgram F) :
    List (AirInteraction F) :=
  (memPreprocessedRows p).flatMap fun row => row.map entryInteraction

/-- The signed sum of multiplicities of the interactions whose key fields
equal `key` — the per-key total the backend's consistency argument checks. -/
def keySum {F : Type} [DecidableEq F] [AddCommMonoid F]
    (ints : List (AirInteraction F)) (key : List F) : F :=
  ((ints.filter fun i => i.values = key).map (·.multiplicity)).sum

/-- The `Mem` instructions of a program, in program order. -/
def memInstrs {F : Type} (p : RecursionProgram F) : List (MemInstr F) :=
  p.instructions.filterMap fun instruction =>
    match instruction with
    | .Mem m => some m
    | _ => none

/-- The instruction list of one matched Write/Read pair list: for each
`(address, value, magnitude)` triple, a Write followed by a Read with equal
address, equal value block and equal multiplicity magnitude. -/
def pairInstrs {F : Type} (ps : List (Address F × Block F × F)) :
    List (MemInstr F) :=
  ps.flatMap fun q =>
    [⟨⟨q.1⟩, ⟨q.2.1⟩, q.2.2, .Write⟩, ⟨⟨q.1⟩, ⟨q.2.1⟩, q.2.2, .Read⟩]

/-- A list of `Mem` instructions consists only of matched Write/Read pairs:
it is a permutation of some `pairInstrs` list. -/
def MatchedWriteReadPairs {F : Type} (l : List (MemInstr F)) : Prop :=
  ∃ ps : List (Address F × Block F × F), l.Perm (pairInstrs ps)

/-- The preprocessed cell `generate_preprocessed_trace` builds from one `Mem`
instruction. -/
def entryOfInstr {F : Type} [Neg F] (m : MemInstr F) : MemEntry F :=
  (m.vals.inner, ⟨m.addrs.inner, signedMult m.kind m.mult⟩)

/-- The variants of the Rust enum `RecursionAir`: the closed chip-variant
set.  `DummyWide` is the source name of the variant the spec calls
`DummyPadding`. -/
inductive ChipVariant where
  | MemoryConst
  | MemoryVar
  | BaseAlu
  | ExtAlu
  | Poseidon2Skinny
  | Poseidon2Wide
  | FriFold
  | ExpReverseBitsLen
  | PublicValues
  | DummyWide
deriving DecidableEq, Fintype

/-- Modelled from the spec: each chip's unique name (`chip.name()`; the chip
implementations other than `MemoryConst` are outside the excerpt).  The spec
fixes the closed name set; `MemoryConst` matches `MemoryChip::name` in
`constant.rs`. -/
def ChipVariant.name : ChipVariant → String
  | .MemoryConst => "MemoryConst"
  | .MemoryVar => "MemoryVar"
  | .BaseAlu => "BaseAlu"
  | .ExtAlu => "ExtAlu"
  | .Poseidon2Skinny => "Poseidon2Skinny"
  | .Poseidon2Wide => "Poseidon2Wide"
  | .FriFold => "FriFold"
  | .ExpReverseBitsLen => "ExpReverseBitsLen"
  | .PublicValues => "PublicValues"
  | .DummyWide => "DummyWide"

/-- Modelled from the spec: `PUB_VALUES_LOG_HEIGHT` (defined in
`chips/public_values.rs`, outside the excerpt) — "PublicValues always reports
one fixed constant height regardless of program content".  The numeric value
is not in the excerpt; no claim depends on it, only on its constancy. -/
def PUB_VALUES_LOG_HEIGHT : Nat := 4

/-- The chip list of `RecursionAir::machine_wide_with_all_chips`, by variant
(the Stark config and public-value slot count are opaque to the claims, so a
machine is embedded as its ordered chip-variant list). -/
def machine_wide_with_all_chips : List ChipVariant :=
  [.MemoryConst, .MemoryVar, .BaseAlu, .ExtAlu, .Poseidon2Wide, .FriFold,
    .ExpReverseBitsLen, .PublicValues]

/-- The chip list of `RecursionAir::machine_skinny_with_all_chips`. -/
def machine_skinny_with_all_chips : List ChipVariant :=
  [.MemoryConst, .MemoryVar, .BaseAlu, .ExtAlu, .Poseidon2Skinny, .FriFold,
    .ExpReverseBitsLen, .PublicValues]

/-- The chip list of `RecursionAir::compress_machine`. -/
def compress_machine : List ChipVariant :=
  [.MemoryConst, .MemoryVar, .BaseAlu, .ExtAlu, .Poseidon2Wide,
    .ExpReverseBitsLen, .PublicValues]

/-- The chip list of `RecursionAir::shrink_machine`: the source body is
exactly `Self::compress_machine(config)`. -/
def shrink_machine : List ChipVariant :=
  compress_machine

/-- The chip list of `RecursionAir::wrap_machine`. -/
def wrap_machine : List ChipVariant :=
  [.MemoryConst, .MemoryVar, .BaseAlu, .ExtAlu, .Poseidon2Skinny,
    .ExpReverseBitsLen, .PublicValues]

/-- Rust `RecursionAir::shrink_shape`: the fixed log2 row-count targets the
shrink profile pre-declares, keyed by chip name. -/
def shrink_shape : RecursionShape :=
  ⟨[(ChipVariant.MemoryConst.name, 16), (ChipVariant.MemoryVar.name, 18),
    (ChipVariant.BaseAlu.name, 20), (ChipVariant.ExtAlu.name, 22),
    (ChipVariant.Poseidon2Wide.name, 16), (ChipVariant.ExpReverseBitsLen.name, 16),
    (ChipVariant.PublicValues.name, PUB_VALUES_LOG_HEIGHT)]⟩

/-- Rust `RecursionAirHeights`: the per-chip counters of the height fold. -/
structure RecursionAirHeights where
  mem_const_height : Nat
  mem_var_height : Nat
  base_alu_height : Nat
  ext_alu_height : Nat
  poseidon2_wide_height : Nat
  fri_fold_height : Nat
  exp_reverse_bits_len_height : Nat
deriving DecidableEq

/-- `RecursionAirHeights::default()`: all counters zero. -/
def RecursionAirHeights.default : RecursionAirHeights :=
  ⟨0, 0, 0, 0, 0, 0, 0⟩

/-- Rust `impl AddAssign<&Instruction<F>> for RecursionAirHeights`, as the
function `heights + instruction` folded in `RecursionAir::heights`. -/
def RecursionAirHeights.add_assign {F : Type} (h : RecursionAirHeights)
    (rhs : Instruction F) : RecursionAirHeights :=
  match rhs with
  | .BaseAlu => { h with base_alu_height := h.base_alu_height + 1 }
  | .ExtAlu => { h with ext_alu_height := h.ext_alu_height + 1 }
  | .Mem _ => { h with mem_const_height := h.mem_const_height + 1 }
  | .Poseidon2 => { h with poseidon2_wide_height := h.poseidon2_wide_height + 1 }
  | .ExpReverseBitsLen =>
      { h with exp_reverse_bits_len_height := h.exp_reverse_bits_len_height + 1 }
  | .Hint output_addrs_mults =>
      { h with mem_var_height := h.mem_var_height + output_addrs_mults.length }
  | .HintBits output_addrs_mults _ =>
      { h with mem_var_height := h.mem_var_height + output_addrs_mults.length }
  | .HintExt2Felts output_addrs_mults _ =>
      { h with mem_var_height := h.mem_var_height + output_addrs_mults.length }
  | .FriFold => { h with fri_fold_height := h.fri_fold_height + 1 }
  | .CommitPublicValues => h
  | .Print => h

/-- Rust `RecursionAir::heights`: fold the instruction sequence into the
counters, then report `(chip name, height)` pairs, the `PublicValues` entry
carrying the fixed constant rather than a counter. -/
def RecursionAir.heights {F : Type} (program : RecursionProgram F) :
    List (String × Nat) :=
  (fun heights =>
    [(ChipVariant.MemoryConst.name, heights.mem_const_height),
      (ChipVariant.MemoryVar.name, heights.mem_var_height),
      (ChipVariant.BaseAlu.name, heights.base_alu_height),
      (ChipVariant.ExtAlu.name, heights.ext_alu_height),
      (ChipVariant.Poseidon2Wide.name, heights.poseidon2_wide_height),
      (ChipVariant.ExpReverseBitsLen.name, heights.exp_reverse_bits_len_height),
      (ChipVariant.PublicValues.name, PUB_VALUES_LOG_HEIGHT)])
    (program.instructions.foldl RecursionAirHeights.add_assign
      RecursionAirHeights.default)

/-- Pointwise addition of height counters (spec-side helper for stating the
fold as a sum of independent per-instruction contributions). -/
def RecursionAirHeights.addH (a b : RecursionAirHeights) : RecursionAirHeights :=
  ⟨a.mem_const_height + b.mem_const_height,
    a.mem_var_height + b.mem_var_height,
    a.base_alu_height + b.base_alu_height,
    a.ext_alu_height + b.ext_alu_height,
    a.poseidon2_wide_height + b.poseidon2_wide_height,
    a.fri_fold_height + b.fri_fold_height,
    a.exp_reverse_bits_len_height + b.exp_reverse_bits_len_height⟩

/-- Spec-side per-instruction height contribution, written from the claim:
BaseAlu, ExtAlu, FriFold and ExpReverseBitsLen add 1 to their own chip's
counter, Mem adds 1 to the constant-memory counter, Poseidon2 adds 1 to the
wide-hash counter, the hint instructions add their number of output addresses
to the variable-memory counter, and CommitPublicValues and Print add
nothing. -/
def instrHeightDelta {F : Type} : Instruction F → RecursionAirHeights
  | .BaseAlu => ⟨0, 0, 1, 0, 0, 0, 0⟩
  | .ExtAlu => ⟨0, 0, 0, 1, 0, 0, 0⟩
  | .Mem _ => ⟨1, 0, 0, 0, 0, 0, 0⟩
  | .Poseidon2 => ⟨0, 0, 0, 0, 1, 0, 0⟩
  | .ExpReverseBitsLen => ⟨0, 0, 0, 0, 0, 0, 1⟩
  | .Hint output_addrs_mults => ⟨0, output_addrs_mults.length, 0, 0, 0, 0, 0⟩
  | .HintBits output_addrs_mults _ => ⟨0, output_addrs_mults.length, 0, 0, 0, 0, 0⟩
  | .HintExt2Felts output_addrs_mults _ => ⟨0, output_addrs_mults.length, 0, 0, 0, 0, 0⟩
  | .FriFold => ⟨0, 0, 0, 0, 0, 1, 0⟩
  | .CommitPublicValues => RecursionAirHeights.default
  | .Print => RecursionAirHeights.default

/-- Spec-side sum of the per-instruction height contributions over a
sequence, an order-independent description of the height fold. -/
def sumDeltas {F : Type} (l : List (Instruction F)) : RecursionAirHeights :=
  l.foldr (fun i acc => (instrHeightDelta i).addH acc) RecursionAirHeights.default

/-- The preprocessed-trace algorithm exactly as the claim words it: keep only
the `Mem` instructions in program order; give each the signed multiplicity
(negated for Read, unchanged for Write); pack consecutive `(value, access)`
entries two per row, filling the rest of a short row with zeros; pad the row
list with all-zero rows to the configured fixed shape or, absent one, to the
next power of two; flatten row-major. -/
def memPreprocessedSpec {F : Type} [Neg F] [Zero F] (p : RecursionProgram F) :
    RowMajorMatrix F :=
  let entries := (memInstrs p).map fun m =>
    (m.vals.inner,
      MemoryAccessCols.mk m.addrs.inner
        (match m.kind with
          | .Read => -m.mult
          | .Write => m.mult))
  let packedRows := (toChunksPerRow entries).map fun c =>
    (c.map entryToCols).flatten ++
      List.replicate (NUM_MEM_PREPROCESSED_INIT_COLS - 6 * c.length) (0 : F)
  let target :=
    match p.fixed_log2_rows MemoryChip.chipName with
    | some lg => 2 ^ lg
    | none => nextPowerOfTwo packedRows.length
  let padded := packedRows ++
    List.replicate (target - packedRows.length)
      (List.replicate NUM_MEM_PREPROCESSED_INIT_COLS (0 : F))
  ⟨padded.flatten, NUM_MEM_PREPROCESSED_INIT_COLS⟩

/-!
## Theorems

Helper lemmas first, then one theorem per claim (with a witness where the
claim's theorem carries a hypothesis).
-/

/-- Shared helper: the runtime pre-padding row count is the ceiling of the
counter divided by the entries-per-row constant. -/
theorem memNumRows_eq (c : Nat) : memNumRows c = (c + 1) / 2 := by
  match c with
  | 0 => rfl
  | Nat.succ c =>
    have h1 : checked_sub (c + 1) 1 = some c := by simp [checked_sub]
    simp only [memNumRows, h1, NUM_CONST_MEM_ENTRIES_PER_ROW]
    omega

/-- C10: with `mem_const_count = 0` the `checked_sub` guard yields `none` and
`generate_trace` computes zero pre-padding rows; in general the pre-padding
runtime row count `memNumRows` is the ceiling of `mem_const_count` divided by
`NUM_CONST_MEM_ENTRIES_PER_ROW = 2`. -/
theorem memNumRows_is_ceil :
    checked_sub 0 1 = none ∧ memNumRows 0 = 0 ∧
      ∀ c : Nat,
        memNumRows c =
          (c + NUM_CONST_MEM_ENTRIES_PER_ROW - 1) / NUM_CONST_MEM_ENTRIES_PER_ROW := by
  refine ⟨rfl, rfl, fun c => ?_⟩
  rw [memNumRows_eq]
  rfl

/-- C9: `MemoryChip::generate_dependencies` is a no-op — the output record is
returned completely unchanged, whatever the two records are. -/
theorem generate_dependencies_noop {F : Type} (record output : ExecutionRecord F) :
    MemoryChip.generate_dependencies record output = output :=
  rfl

/-- C8: every Memory-channel interaction built by the shared helpers carries
exactly the address followed by the fixed-width (4-element) value block as
key fields plus a signed multiplicity; `send_block` touches only `sends`,
`receive_block` only `receives`, and the single-value wrappers pad the value
into a block with the value in position 0 and zeros elsewhere. -/
theorem builder_memory_wire_shape {F : Type} [Zero F] (b : BuilderState F)
    (addr : Address F) (val : Block F) (v mult : F) :
    (b.send_block addr val mult).sends =
        b.sends ++ [AirInteraction.mk (addr.inner :: val.toList) mult .Memory] ∧
      (b.send_block addr val mult).receives = b.receives ∧
      (b.receive_block addr val mult).receives =
        b.receives ++ [AirInteraction.mk (addr.inner :: val.toList) mult .Memory] ∧
      (b.receive_block addr val mult).sends = b.sends ∧
      b.send_single addr v mult = b.send_block addr (Block.mk v 0 0 0) mult ∧
      b.receive_single addr v mult = b.receive_block addr (Block.mk v 0 0 0) mult ∧
      (addr.inner :: val.toList).length = 1 + 4 :=
  ⟨rfl, rfl, rfl, rfl, rfl, rfl, rfl⟩

/-- C7: the shrink profile's chip set is exactly the compress profile's, and
`shrink_shape` pre-declares a fixed shape precisely for the chips of that
common set (keyed by their names, in order). -/
theorem shrink_chipset_eq_compress :
    shrink_machine = compress_machine ∧
      shrink_shape.inner.map Prod.fst = compress_machine.map ChipVariant.name :=
  ⟨rfl, rfl⟩

/-- C6 counterexample: the wide-all machine does not contain every variant of
the closed chip-variant set — `Poseidon2Skinny` (and likewise the dummy
padding chip) is absent from `machine_wide_with_all_chips`. -/
theorem machine_wide_missing_skinny :
    (ChipVariant.Poseidon2Skinny ∈ machine_wide_with_all_chips) = False ∧
      (ChipVariant.DummyWide ∈ machine_wide_with_all_chips) = False :=
  ⟨eq_false (by decide), eq_false (by decide)⟩

/-- C6 amended: `machine_wide_with_all_chips` contains every variant of the
closed chip-variant set except `Poseidon2Skinny` and the dummy padding chip,
with the wide hash variant selected. -/
theorem machine_wide_chip_set :
    (∀ v : ChipVariant,
        v ∈ machine_wide_with_all_chips ↔
          v ≠ ChipVariant.Poseidon2Skinny ∧ v ≠ ChipVariant.DummyWide) ∧
      ChipVariant.Poseidon2Wide ∈ machine_wide_with_all_chips := by
  decide

/-- Shared helper: pointwise addition of height counters is associative. -/
theorem addH_assoc (a b c : RecursionAirHeights) :
    (a.addH b).addH c = a.addH (b.addH c) := by
  simp [RecursionAirHeights.addH, Nat.add_assoc]

/-- Shared helper: pointwise addition of height counters is commutative. -/
theorem addH_comm (a b : RecursionAirHeights) : a.addH b = b.addH a := by
  simp [RecursionAirHeights.addH, Nat.add_comm]

/-- Shared helper: the all-zero counters are a right identity. -/
theorem addH_default (a : RecursionAirHeights) :
    a.addH RecursionAirHeights.default = a := by
  simp [RecursionAirHeights.addH, RecursionAirHeights.default]

/-- Shared helper: one step of the source fold adds exactly the claimed
per-instruction contribution. -/
theorem add_assign_eq_addH {F : Type} (h : RecursionAirHeights) (i : Instruction F) :
    h.add_assign i = h.addH (instrHeightDelta i) := by
  cases i <;>
    simp [RecursionAirHeights.add_assign, RecursionAirHeights.addH,
      instrHeightDelta, RecursionAirHeights.default]

/-- Shared helper: the source fold from any accumulator is the accumulator
plus the sum of the per-instruction contributions. -/
theorem foldl_add_assign {F : Type} (l : List (Instruction F))
    (acc : RecursionAirHeights) :
    l.foldl RecursionAirHeights.add_assign acc = acc.addH (sumDeltas l) := by
  induction l generalizing acc with
  | nil => exact (addH_default acc).symm
  | cons i l ih =>
    simp only [List.foldl_cons, sumDeltas, List.foldr_cons]
    rw [ih, add_assign_eq_addH]
    rw [addH_assoc]
    rfl

/-- C4: `RecursionAir::heights` is the fold of the per-chip counters where
each BaseAlu, ExtAlu, FriFold and ExpReverseBitsLen instruction adds 1 to its
own chip's counter, each Mem instruction adds 1 to the constant-memory
counter, each Poseidon2 instruction adds 1 to the wide-hash counter, each
Hint, HintBits and HintExt2Felts instruction adds its number of output
addresses to the variable-memory counter, CommitPublicValues and Print add
nothing; and the PublicValues entry of the reported list is the fixed
constant `PUB_VALUES_LOG_HEIGHT` whatever the program. -/
theorem heights_fold_spec {F : Type} (p : RecursionProgram F) :
    RecursionAir.heights p =
        [(ChipVariant.MemoryConst.name, (sumDeltas p.instructions).mem_const_height),
          (ChipVariant.MemoryVar.name, (sumDeltas p.instructions).mem_var_height),
          (ChipVariant.BaseAlu.name, (sumDeltas p.instructions).base_alu_height),
          (ChipVariant.ExtAlu.name, (sumDeltas p.instructions).ext_alu_height),
          (ChipVariant.Poseidon2Wide.name,
            (sumDeltas p.instructions).poseidon2_wide_height),
          (ChipVariant.ExpReverseBitsLen.name,
            (sumDeltas p.instructions).exp_reverse_bits_len_height),
          (ChipVariant.PublicValues.name, PUB_VALUES_LOG_HEIGHT)] ∧
      ∀ (h : RecursionAirHeights) (i : Instruction F),
        h.add_assign i = h.addH (instrHeightDelta i) := by
  refine ⟨?_, add_assign_eq_addH⟩
  have hfold := foldl_add_assign p.instructions RecursionAirHeights.default
  rw [RecursionAir.heights, hfold, addH_comm, addH_default]

/-- Shared helper: the sum of per-instruction contributions is invariant
under permutation of the instruction sequence. -/
theorem sumDeltas_perm {F : Type} {l₁ l₂ : List (Instruction F)}
    (h : l₁.Perm l₂) : sumDeltas l₁ = sumDeltas l₂ := by
  induction h with
  | nil => rfl
  | cons x _ ih => simp only [sumDeltas, List.foldr_cons] at ih ⊢; rw [ih]
  | swap x y l =>
    simp only [sumDeltas, List.foldr_cons]
    rw [← addH_assoc, ← addH_assoc, addH_comm (instrHeightDelta y)]
  | trans _ _ ih₁ ih₂ => exact ih₁.trans ih₂

/-- C5: programs whose instruction sequences are permutations of each other
get identical per-chip heights from `RecursionAir::heights`. -/
theorem heights_perm_invariant {F : Type} (p₁ p₂ : RecursionProgram F)
    (h : p₁.instructions.Perm p₂.instructions) :
    RecursionAir.heights p₁ = RecursionAir.heights p₂ := by
  rw [RecursionAir.heights, RecursionAir.heights,
    foldl_add_assign, foldl_add_assign, sumDeltas_perm h]

/-- C5 witness: two concrete two-instruction programs that are reorderings of
one another have equal heights. -/
theorem heights_perm_invariant_witness :
    RecursionAir.heights
        (RecursionProgram.mk
          [Instruction.BaseAlu,
            Instruction.Mem ⟨⟨⟨(1 : Int)⟩⟩, ⟨⟨2, 0, 0, 0⟩⟩, 1, .Write⟩]
          none) =
      RecursionAir.heights
        (RecursionProgram.mk
          [Instruction.Mem ⟨⟨⟨(1 : Int)⟩⟩, ⟨⟨2, 0, 0, 0⟩⟩, 1, .Write⟩,
            Instruction.BaseAlu]
          none) :=
  heights_perm_invariant _ _ (List.Perm.swap _ _ _)

/-- Shared helper: the chunking stage produces `⌈n / 2⌉` chunks. -/
theorem toChunksPerRow_length {α : Type} (l : List α) :
    (toChunksPerRow l).length = (l.length + 1) / 2 := by
  induction l using toChunksPerRow.induct with
  | case1 => simp [toChunksPerRow]
  | case2 x => simp [toChunksPerRow]
  | case3 x y l ih =>
    simp only [toChunksPerRow, List.length_cons]
    rw [ih]
    omega

/-- Shared helper: a packed preprocessed row always has exactly
`NUM_CONST_MEM_ENTRIES_PER_ROW` cells, whatever the chunk. -/
theorem memRowEntries_length {F : Type} [Zero F] (c : List (MemEntry F)) :
    (memRowEntries c).length = NUM_CONST_MEM_ENTRIES_PER_ROW := by
  simp only [memRowEntries, List.length_take, List.length_append,
    List.length_replicate, NUM_CONST_MEM_ENTRIES_PER_ROW]
  omega

/-- Shared helper: flattening a list of equal-length rows multiplies the
lengths. -/
theorem flatten_length_const {α : Type} (rows : List (List α)) (w : Nat)
    (h : ∀ r ∈ rows, r.length = w) : rows.flatten.length = rows.length * w := by
  induction rows with
  | nil => simp
  | cons r rs ih =>
    simp only [List.flatten_cons, List.length_append, List.length_cons]
    rw [h r (List.mem_cons_self r rs), ih fun q hq => h q (List.mem_cons_of_mem _ hq)]
    ring

/-- Shared helper: the padded row count of `pad_rows_fixed`. -/
theorem pad_rows_fixed_length {R : Type} (rows : List R) (dummy : R)
    (f : Option Nat) :
    (pad_rows_fixed rows dummy f).length =
      max rows.length (padded_nb_rows rows.length f) := by
  simp only [pad_rows_fixed, List.length_append, List.length_replicate]
  omega

/-- Shared helper: the `filter_map` stage is the cellification of the `Mem`
instruction list. -/
theorem memPreprocessedEntries_eq {F : Type} [Neg F] (p : RecursionProgram F) :
    memPreprocessedEntries p = (memInstrs p).map entryOfInstr := by
  rw [memPreprocessedEntries, memInstrs, List.map_filterMap]
  congr 1
  funext i
  cases i <;> rfl

/-- Shared helper: one cell flattens to six columns. -/
theorem entryToCols_length {F : Type} (e : MemEntry F) :
    (entryToCols e).length = 6 :=
  rfl

/-- Shared helper: the runtime trace height, as a function of the counter and
the record's fixed-shape configuration only. -/
theorem generate_trace_height {F : Type} [Zero F] (r : ExecutionRecord F) :
    (MemoryChip.generate_trace r).height =
      max (memNumRows r.mem_const_count)
        (padded_nb_rows (memNumRows r.mem_const_count)
          (r.fixed_log2_rows MemoryChip.chipName)) := by
  show (RowMajorMatrix.mk _ NUM_MEM_INIT_COLS).height = _
  rw [RowMajorMatrix.height]
  rw [flatten_length_const _ NUM_MEM_INIT_COLS ?_]
  · rw [pad_rows_fixed_length, List.length_replicate]
    simp [NUM_MEM_INIT_COLS]
  · intro row hrow
    rcases List.mem_append.mp hrow with h | h
    · rw [List.eq_of_mem_replicate h, List.length_replicate]
    · rw [List.eq_of_mem_replicate h, List.length_replicate]

/-- Shared helper: every padded preprocessed row has exactly two cells. -/
theorem memPreprocessedRows_lengths {F : Type} [Neg F] [Zero F]
    (p : RecursionProgram F) :
    ∀ row ∈ memPreprocessedRows p, row.length = NUM_CONST_MEM_ENTRIES_PER_ROW := by
  intro row hrow
  rcases List.mem_append.mp hrow with h | h
  · obtain ⟨c, _, rfl⟩ := List.mem_map.mp h
    exact memRowEntries_length c
  · rw [List.eq_of_mem_replicate h, List.length_replicate]

/-- Shared helper: the preprocessed trace height, as a function of the `Mem`
instruction count and the program's fixed-shape configuration. -/
theorem generate_preprocessed_height {F : Type} [Neg F] [Zero F]
    (p : RecursionProgram F) (m : RowMajorMatrix F)
    (hm : MemoryChip.generate_preprocessed_trace p = some m) :
    m.height =
      max (((memInstrs p).length + 1) / 2)
        (padded_nb_rows (((memInstrs p).length + 1) / 2)
          (p.fixed_log2_rows MemoryChip.chipName)) := by
  have hm' : m =
      RowMajorMatrix.mk
        ((memPreprocessedRows p).map fun row => (row.map entryToCols).flatten).flatten
        NUM_MEM_PREPROCESSED_INIT_COLS :=
    (Option.some_injective _ hm.symm)
  subst hm'
  rw [RowMajorMatrix.height]
  rw [flatten_length_const _ NUM_MEM_PREPROCESSED_INIT_COLS ?_]
  · rw [List.length_map, memPreprocessedRows, pad_rows_fixed_length, List.length_map,
      toChunksPerRow_length, memPreprocessedEntries_eq, List.length_map]
    simp [NUM_MEM_PREPROCESSED_INIT_COLS, NUM_CONST_MEM_ENTRIES_PER_ROW]
  · intro fr hfr
    obtain ⟨row, hrow, rfl⟩ := List.mem_map.mp hfr
    rw [flatten_length_const _ 6 ?_]
    · rw [List.length_map, memPreprocessedRows_lengths p row hrow]
      rfl
    · intro c hc
      obtain ⟨e, _, rfl⟩ := List.mem_map.mp hc
      exact entryToCols_length e

/-- C1: for a matching record (counter = number of `Mem` instructions,
agreeing fixed-shape configuration for the MemoryConst chip), the runtime
trace has the same row count as the preprocessed trace and exactly one
column; and the runtime trace depends only on the counter and the shape
configuration, not on any instruction scan. -/
theorem mem_trace_heights_match {F : Type} [Neg F] [Zero F]
    (p : RecursionProgram F) (r : ExecutionRecord F) (m : RowMajorMatrix F)
    (hcount : r.mem_const_count = (memInstrs p).length)
    (hshape : r.fixed_log2_rows MemoryChip.chipName =
      p.fixed_log2_rows MemoryChip.chipName)
    (hm : MemoryChip.generate_preprocessed_trace p = some m) :
    (MemoryChip.generate_trace r).height = m.height ∧
      (MemoryChip.generate_trace r).width = 1 ∧
      ∀ r' : ExecutionRecord F,
        r'.mem_const_count = r.mem_const_count →
        r'.fixed_log2_rows MemoryChip.chipName =
          r.fixed_log2_rows MemoryChip.chipName →
        MemoryChip.generate_trace r' = MemoryChip.generate_trace r := by
  refine ⟨?_, rfl, ?_⟩
  · rw [generate_trace_height, generate_preprocessed_height p m hm, hcount, hshape,
      memNumRows_eq]
  · intro r' h1 h2
    simp only [MemoryChip.generate_trace, h1, h2]

/-- C1 witness: a two-`Mem`-instruction program and the matching record with
counter 2; both traces have height 1 and the runtime trace has one column. -/
theorem mem_trace_heights_match_witness :
    (MemoryChip.generate_trace (F := Int) ⟨2, [], none⟩).height =
        (RowMajorMatrix.mk ([2, 0, 0, 0, 1, 1, 2, 0, 0, 0, 1, -1] : List Int)
          NUM_MEM_PREPROCESSED_INIT_COLS).height ∧
      (MemoryChip.generate_trace (F := Int) ⟨2, [], none⟩).width = 1 ∧
      ∀ r' : ExecutionRecord Int,
        r'.mem_const_count = (⟨2, [], none⟩ : ExecutionRecord Int).mem_const_count →
        r'.fixed_log2_rows MemoryChip.chipName =
          (⟨2, [], none⟩ : ExecutionRecord Int).fixed_log2_rows MemoryChip.chipName →
        MemoryChip.generate_trace r' =
          MemoryChip.generate_trace (⟨2, [], none⟩ : ExecutionRecord Int) :=
  mem_trace_heights_match
    (RecursionProgram.mk
      [Instruction.Mem ⟨⟨⟨(1 : Int)⟩⟩, ⟨⟨2, 0, 0, 0⟩⟩, 1, .Write⟩,
        Instruction.Mem ⟨⟨⟨(1 : Int)⟩⟩, ⟨⟨2, 0, 0, 0⟩⟩, 1, .Read⟩]
      none)
    ⟨2, [], none⟩ _ rfl rfl (by decide)

/-- Shared helper: unfolding `keySum` one interaction at a time. -/
theorem keySum_cons {F : Type} [DecidableEq F] [AddCommMonoid F]
    (a : AirInteraction F) (l : List (AirInteraction F)) (key : List F) :
    keySum (a :: l) key =
      (if a.values = key then a.multiplicity else 0) + keySum l key := by
  by_cases h : a.values = key <;> simp [keySum, List.filter_cons, h]

/-- Shared helper: `keySum` distributes over list append. -/
theorem keySum_append {F : Type} [DecidableEq F] [AddCommMonoid F]
    (l₁ l₂ : List (AirInteraction F)) (key : List F) :
    keySum (l₁ ++ l₂) key = keySum l₁ key + keySum l₂ key := by
  simp [keySum, List.filter_append, List.sum_append]

/-- Shared helper: interactions whose multiplicities are all zero contribute
nothing to any key sum. -/
theorem keySum_zero_of_mults {F : Type} [DecidableEq F] [AddCommMonoid F]
    (l : List (AirInteraction F)) (key : List F)
    (h : ∀ i ∈ l, i.multiplicity = 0) : keySum l key = 0 := by
  induction l with
  | nil => rfl
  | cons a l ih =>
    rw [keySum_cons, ih fun i hi => h i (List.mem_cons_of_mem _ hi),
      h a (List.mem_cons_self a l)]
    simp

/-- Shared helper: `keySum` is invariant under permutation of the
interaction list. -/
theorem keySum_perm {F : Type} [DecidableEq F] [AddCommMonoid F]
    {l₁ l₂ : List (AirInteraction F)} (h : l₁.Perm l₂) (key : List F) :
    keySum l₁ key = keySum l₂ key :=
  ((h.filter _).map _).sum_eq

/-- Shared helper: the packed rows of a chunked entry list flatten back to
the entry list followed by some number of all-zero cells. -/
theorem toChunks_rows_flatten {F : Type} [Zero F] (l : List (MemEntry F)) :
    ∃ k, ((toChunksPerRow l).map memRowEntries).flatten =
      l ++ List.replicate k (zeroEntry (F := F)) := by
  induction l using toChunksPerRow.induct with
  | case1 => exact ⟨0, by simp [toChunksPerRow]⟩
  | case2 x =>
    exact ⟨1, by simp [toChunksPerRow, memRowEntries, NUM_CONST_MEM_ENTRIES_PER_ROW]⟩
  | case3 x y l ih =>
    obtain ⟨k, hk⟩ := ih
    refine ⟨k, ?_⟩
    simp only [toChunksPerRow, List.map_cons, List.flatten_cons, hk]
    simp [memRowEntries, NUM_CONST_MEM_ENTRIES_PER_ROW]

/-- Shared helper: flattening a replicated row of replicated cells. -/
theorem flatten_replicate_replicate {α : Type} (m k : Nat) (a : α) :
    (List.replicate m (List.replicate k a)).flatten = List.replicate (m * k) a := by
  induction m with
  | zero => simp
  | succ m ih =>
    rw [List.replicate_succ, List.flatten_cons, ih, Nat.succ_mul, Nat.add_comm,
      List.replicate_add]

/-- Shared helper: the padded preprocessed rows flatten to the entry list
followed by some number of all-zero cells. -/
theorem memPreprocessedRows_flatten {F : Type} [Neg F] [Zero F]
    (p : RecursionProgram F) :
    ∃ k, (memPreprocessedRows p).flatten =
      memPreprocessedEntries p ++ List.replicate k (zeroEntry (F := F)) := by
  obtain ⟨k, hk⟩ := toChunks_rows_flatten (memPreprocessedEntries p)
  exact ⟨_, by
    rw [memPreprocessedRows, pad_rows_fixed, List.flatten_append, hk,
      flatten_replicate_replicate, List.append_assoc, ← List.replicate_add]⟩

/-- Shared helper: the interactions `eval` emits over the whole trace are the
cellwise interactions of the flattened row list. -/
theorem evalSends_eq {F : Type} [Neg F] [Zero F] (p : RecursionProgram F) :
    MemoryChip.evalSends p = (memPreprocessedRows p).flatten.map entryInteraction := by
  rw [MemoryChip.evalSends]
  induction memPreprocessedRows p with
  | nil => rfl
  | cons row rows ih =>
    simp only [List.flatMap_cons, List.flatten_cons, List.map_append, ih]

/-- Shared helper: the interactions of one matched pair list sum to zero at
every key. -/
theorem keySum_pairs {F : Type} [DecidableEq F] [AddCommGroup F]
    (ps : List (Address F × Block F × F)) (key : List F) :
    keySum ((pairInstrs ps).map (entryInteraction ∘ entryOfInstr)) key = 0 := by
  induction ps with
  | nil => rfl
  | cons q ps ih =>
    have hp : pairInstrs (q :: ps) =
        ⟨⟨q.1⟩, ⟨q.2.1⟩, q.2.2, .Write⟩ :: ⟨⟨q.1⟩, ⟨q.2.1⟩, q.2.2, .Read⟩ ::
          pairInstrs ps := by
      simp [pairInstrs]
    rw [hp, List.map_cons, List.map_cons, keySum_cons, keySum_cons, ih]
    by_cases h : (q.1.inner :: (q.2.1).toList : List F) = key <;>
      simp [entryInteraction, blockInteraction, entryOfInstr, signedMult, h]

/-- C2: if the `Mem` instructions of a program consist only of matched
Write/Read pairs (equal address, equal value block, equal multiplicity
magnitude, opposite kinds), then the signed multiplicities of all
Memory-channel interactions emitted by `MemoryChip::eval` sum to zero at
every (address, value) key; the zero-multiplicity padding cells contribute
nothing. -/
theorem mem_interactions_balanced {F : Type} [AddCommGroup F] [DecidableEq F]
    (p : RecursionProgram F) (h : MatchedWriteReadPairs (memInstrs p))
    (key : List F) : keySum (MemoryChip.evalSends p) key = 0 := by
  obtain ⟨ps, hperm⟩ := h
  obtain ⟨k, hk⟩ := memPreprocessedRows_flatten p
  rw [evalSends_eq, hk, List.map_append, keySum_append]
  have hzero :
      keySum ((List.replicate k (zeroEntry (F := F))).map entryInteraction) key = 0 := by
    apply keySum_zero_of_mults
    intro i hi
    obtain ⟨e, he, rfl⟩ := List.mem_map.mp hi
    rw [List.eq_of_mem_replicate he]
    rfl
  rw [hzero, add_zero, memPreprocessedEntries_eq, List.map_map,
    keySum_perm (hperm.map (entryInteraction ∘ entryOfInstr)) key, keySum_pairs]

/-- C2 witness: one concrete matched Write/Read pair balances at its own
(address, value) key. -/
theorem mem_interactions_balanced_witness :
    keySum
        (MemoryChip.evalSends
          (RecursionProgram.mk
            [Instruction.Mem ⟨⟨⟨(1 : Int)⟩⟩, ⟨⟨2, 0, 0, 0⟩⟩, 3, .Write⟩,
              Instruction.Mem ⟨⟨⟨(1 : Int)⟩⟩, ⟨⟨2, 0, 0, 0⟩⟩, 3, .Read⟩]
            none))
        [1, 2, 0, 0, 0] = 0 :=
  mem_interactions_balanced _ ⟨[(⟨1⟩, ⟨2, 0, 0, 0⟩, 3)], by decide⟩ [1, 2, 0, 0, 0]

/-- Shared helper: every chunk has at most two elements. -/
theorem toChunksPerRow_chunk_le {α : Type} (l : List α) :
    ∀ c ∈ toChunksPerRow l, c.length ≤ 2 := by
  induction l using toChunksPerRow.induct with
  | case1 => intro c hc; simp [toChunksPerRow] at hc
  | case2 x =>
    intro c hc
    simp only [toChunksPerRow, List.mem_singleton] at hc
    subst hc
    simp
  | case3 x y l ih =>
    intro c hc
    simp only [toChunksPerRow, List.mem_cons] at hc
    rcases hc with rfl | hc
    · simp
    · exact ih c hc

/-- Shared helper: the all-zero cell flattens to six zero columns. -/
theorem entryToCols_zeroEntry {F : Type} [Zero F] :
    entryToCols (zeroEntry (F := F)) = List.replicate 6 (0 : F) :=
  rfl

/-- Shared helper: the all-zero dummy row flattens to a full row of zero
columns. -/
theorem dummyRow_flat {F : Type} [Zero F] :
    ((List.replicate NUM_CONST_MEM_ENTRIES_PER_ROW (zeroEntry (F := F))).map
        entryToCols).flatten =
      List.replicate NUM_MEM_PREPROCESSED_INIT_COLS (0 : F) :=
  rfl

/-- C3: `generate_preprocessed_trace` returns `some` of exactly the matrix the
claim describes — Mem instructions in program order, Read multiplicities
negated and Write multiplicities unchanged, entries packed two per row,
zero-row padding to the fixed shape or the next power of two, flattened
row-major (stated against `memPreprocessedSpec`, the algorithm written from
the claim's words). -/
theorem generate_preprocessed_trace_spec {F : Type} [Neg F] [Zero F]
    (p : RecursionProgram F) :
    MemoryChip.generate_preprocessed_trace p = some (memPreprocessedSpec p) := by
  have hcell :
      (fun m : MemInstr F =>
        (m.vals.inner,
          MemoryAccessCols.mk m.addrs.inner
            (match m.kind with
              | .Read => -m.mult
              | .Write => m.mult))) = entryOfInstr := by
    funext m
    rcases m with ⟨a, v, mu, k⟩
    cases k <;> rfl
  have hchunk : ∀ c ∈ toChunksPerRow (memPreprocessedEntries p),
      ((memRowEntries c).map entryToCols).flatten =
        (c.map entryToCols).flatten ++
          List.replicate (NUM_MEM_PREPROCESSED_INIT_COLS - 6 * c.length) (0 : F) := by
    intro c hc
    have hle := toChunksPerRow_chunk_le _ c hc
    have h2 : memRowEntries c =
        c ++ List.replicate (NUM_CONST_MEM_ENTRIES_PER_ROW - c.length)
          (zeroEntry (F := F)) := by
      rw [memRowEntries]
      apply List.take_of_length_le
      simp only [List.length_append, List.length_replicate,
        NUM_CONST_MEM_ENTRIES_PER_ROW]
      omega
    have hcount : (NUM_CONST_MEM_ENTRIES_PER_ROW - c.length) * 6 =
        NUM_MEM_PREPROCESSED_INIT_COLS - 6 * c.length := by
      simp only [NUM_CONST_MEM_ENTRIES_PER_ROW, NUM_MEM_PREPROCESSED_INIT_COLS]
      omega
    rw [h2, List.map_append, List.map_replicate, entryToCols_zeroEntry,
      List.flatten_append, flatten_replicate_replicate, hcount]
  have hpack :
      (((toChunksPerRow (memPreprocessedEntries p)).map memRowEntries).map
        fun row => (row.map entryToCols).flatten) =
        (toChunksPerRow (memPreprocessedEntries p)).map fun c =>
          (c.map entryToCols).flatten ++
            List.replicate (NUM_MEM_PREPROCESSED_INIT_COLS - 6 * c.length) (0 : F) := by
    rw [List.map_map]
    exact List.map_congr_left hchunk
  rw [MemoryChip.generate_preprocessed_trace]
  simp only [memPreprocessedSpec, hcell, ← memPreprocessedEntries_eq]
  refine congrArg some ?_
  refine congrArg (fun v => RowMajorMatrix.mk v NUM_MEM_PREPROCESSED_INIT_COLS) ?_
  refine congrArg List.flatten ?_
  rw [memPreprocessedRows, pad_rows_fixed, List.map_append, List.map_replicate,
    dummyRow_flat, hpack]
  simp only [List.length_map]
  rfl

end Sp1Recursion
